import Mathlib

/-!
Shallow embedding of the Gold Perfium front-end core (src/js/security.js,
src/js/cart.js, with constants from src/js/api.js), together with proofs of
the specification's claims about it.

Strings are modelled as `List Char` (Lean `Char` is a Unicode scalar value,
matching well-formed JavaScript strings).  The browser platform functions the
code calls (`btoa`/`atob`, `encodeURIComponent`/`escape` composition,
`JSON.parse`) are modelled by executable Lean functions with their standard
semantics; thrown exceptions are modelled with `Except`/`Option`.
-/

namespace GoldPerfium

/-- JavaScript strings, modelled as lists of Unicode scalar values. -/
abbrev Str := List Char

/-! ### UTF-8 encoding

`unescape(encodeURIComponent(s))` in `encryptData` converts a string to its
UTF-8 byte sequence (one char per byte); `decodeURIComponent(escape(s))` in
`decryptData` is its inverse. -/

/-- UTF-8 encoding of a single Unicode scalar value, as a list of bytes. -/
def utf8EncodeChar (c : Char) : List Nat :=
  if c.toNat < 0x80 then [c.toNat]
  else if c.toNat < 0x800 then [0xC0 + c.toNat / 64, 0x80 + c.toNat % 64]
  else if c.toNat < 0x10000 then
    [0xE0 + c.toNat / 4096, 0x80 + c.toNat / 64 % 64, 0x80 + c.toNat % 64]
  else
    [0xF0 + c.toNat / 262144, 0x80 + c.toNat / 4096 % 64,
     0x80 + c.toNat / 64 % 64, 0x80 + c.toNat % 64]

/-- UTF-8 encoding of a string. -/
def utf8Encode (s : Str) : List Nat := s.flatMap utf8EncodeChar

/-- Decodes a two-byte UTF-8 sequence continuation given lead byte `b1`. -/
def utf8Two (b1 : Nat) : List Nat → Option (Nat × List Nat)
  | b2 :: rest2 =>
    if b2 / 64 = 2 then some ((b1 - 0xC0) * 64 + (b2 - 0x80), rest2) else none
  | [] => none

/-- Decodes a three-byte UTF-8 sequence continuation given lead byte `b1`. -/
def utf8Three (b1 : Nat) : List Nat → Option (Nat × List Nat)
  | b2 :: b3 :: rest3 =>
    if b2 / 64 = 2 ∧ b3 / 64 = 2 then
      if (b1 - 0xE0) * 4096 + (b2 - 0x80) * 64 + (b3 - 0x80) < 0x800 ∨
          (0xD800 ≤ (b1 - 0xE0) * 4096 + (b2 - 0x80) * 64 + (b3 - 0x80) ∧
           (b1 - 0xE0) * 4096 + (b2 - 0x80) * 64 + (b3 - 0x80) < 0xE000) then none
      else some ((b1 - 0xE0) * 4096 + (b2 - 0x80) * 64 + (b3 - 0x80), rest3)
    else none
  | _ => none

/-- Decodes a four-byte UTF-8 sequence continuation given lead byte `b1`. -/
def utf8Four (b1 : Nat) : List Nat → Option (Nat × List Nat)
  | b2 :: b3 :: b4 :: rest4 =>
    if b2 / 64 = 2 ∧ b3 / 64 = 2 ∧ b4 / 64 = 2 then
      if (b1 - 0xF0) * 262144 + (b2 - 0x80) * 4096 + (b3 - 0x80) * 64 + (b4 - 0x80)
          < 0x10000 ∨
          0x110000 ≤ (b1 - 0xF0) * 262144 + (b2 - 0x80) * 4096 + (b3 - 0x80) * 64 +
            (b4 - 0x80) then none
      else
        some ((b1 - 0xF0) * 262144 + (b2 - 0x80) * 4096 + (b3 - 0x80) * 64 + (b4 - 0x80),
          rest4)
    else none
  | _ => none

/-- Decodes one Unicode scalar value from the front of a UTF-8 byte sequence,
returning the scalar and the remaining bytes; `none` on malformed input. -/
def utf8DecodeOne : List Nat → Option (Nat × List Nat)
  | [] => none
  | b1 :: rest =>
    if b1 < 0x80 then some (b1, rest)
    else if b1 < 0xC2 then none
    else if b1 < 0xE0 then utf8Two b1 rest
    else if b1 < 0xF0 then utf8Three b1 rest
    else if b1 < 0xF5 then utf8Four b1 rest
    else none
/-- UTF-8 decoding driver: decodes scalars one at a time; the fuel only
bounds the number of scalars (each consumes at least one byte, so a fuel of
the byte count always suffices).  `none` models `decodeURIComponent` throwing
`URIError` on malformed bytes. -/
def utf8DecodeAux : Nat → List Nat → Option Str
  | _, [] => some []
  | 0, _ :: _ => none
  | fuel + 1, b1 :: rest =>
    match utf8DecodeOne (b1 :: rest) with
    | none => none
    | some (n, r) => (utf8DecodeAux fuel r).map (Char.ofNat n :: ·)

/-- UTF-8 decoding of a whole byte sequence. -/
def utf8Decode (l : List Nat) : Option Str := utf8DecodeAux l.length l

/-! ### Base64 (`btoa` / `atob`) -/

/-- The standard base64 alphabet. -/
def b64Alphabet : Str :=
  "ABCDEFGHIJKLMNOPQRSTUVWXYZabcdefghijklmnopqrstuvwxyz0123456789+/".data

/-- Character for a 6-bit group. -/
def b64c (n : Nat) : Char := b64Alphabet.getD n 'A'

/-- Index of a base64 character in the alphabet; `none` for characters
outside it (models `atob` throwing on invalid input). -/
def b64v (c : Char) : Option Nat := b64Alphabet.indexOf? c

/-- The `btoa` builtin: base64-encode a byte string, three bytes to four
characters, padding with `=`. -/
def btoaF : List Nat → Str
  | [] => []
  | [b1] => [b64c (b1 / 4), b64c (b1 % 4 * 16), '=', '=']
  | [b1, b2] => [b64c (b1 / 4), b64c (b1 % 4 * 16 + b2 / 16), b64c (b2 % 16 * 4), '=']
  | b1 :: b2 :: b3 :: rest =>
    b64c (b1 / 4) :: b64c (b1 % 4 * 16 + b2 / 16) ::
    b64c (b2 % 16 * 4 + b3 / 64) :: b64c (b3 % 64) :: btoaF rest

/-- The `atob` builtin: base64-decode; `none` models the `InvalidCharacterError`
thrown on malformed input. -/
def atobF : Str → Option (List Nat)
  | [] => some []
  | c1 :: c2 :: c3 :: c4 :: rest => do
    let v1 ← b64v c1
    let v2 ← b64v c2
    if c3 = '=' ∧ c4 = '=' ∧ rest = [] then
      pure [v1 * 4 + v2 / 16]
    else do
      let v3 ← b64v c3
      if c4 = '=' ∧ rest = [] then
        pure [v1 * 4 + v2 / 16, v2 % 16 * 16 + v3 / 4]
      else do
        let v4 ← b64v c4
        let tl ← atobF rest
        pure ((v1 * 4 + v2 / 16) :: (v2 % 16 * 16 + v3 / 4) :: (v3 % 4 * 64 + v4) :: tl)
  | _ => none

/-! ### JavaScript `String.prototype.split` / `Array.prototype.join` -/

/-- JavaScript `s.split(sep)` for a one-character separator: the list of
(possibly empty) chunks between occurrences of `sep`; always non-empty. -/
def jsSplit (sep : Char) : Str → List Str
  | [] => [[]]
  | c :: rest =>
    match jsSplit sep rest with
    | [] => [[]]
    | p :: ps => if c = sep then [] :: p :: ps else (c :: p) :: ps

/-- JavaScript `parts.join(sep)` for a one-character separator. -/
def jsJoin (sep : Char) : List Str → Str
  | [] => []
  | [p] => p
  | p :: ps => p ++ sep :: jsJoin sep ps

/-! ### `encryptData` / `decryptData` (src/js/security.js lines 75-113) -/

/-- Digit characters used by JavaScript `Number.prototype.toString(36)`. -/
def base36Digit (n : Nat) : Char :=
  "0123456789abcdefghijklmnopqrstuvwxyz".data.getD n '0'

/-- `Date.now().toString(36)`: base-36 rendering of a natural number. -/
def natToBase36 (n : Nat) : Str :=
  if n < 36 then [base36Digit n]
  else natToBase36 (n / 36) ++ [base36Digit (n % 36)]
decreasing_by exact Nat.div_lt_self (by omega) (by omega)

/-- The salt built inside `encryptData`: `'GP_' + Date.now().toString(36)`,
parameterised by the `Date.now()` value. -/
def saltOf (ts : Nat) : Str := 'G' :: 'P' :: '_' :: natToBase36 ts

/-- `encryptData` from src/js/security.js: prepend the time-derived salt and a
`'|'` separator, UTF-8 encode, base64 encode, reverse, append `'_GP'`.  For
well-formed Unicode input (all Lean strings) none of the platform calls can
throw, so the `catch` branch is unreachable and is not modelled. -/
def encryptData (ts : Nat) (data : Str) : Str :=
  (btoaF (utf8Encode (saltOf ts ++ '|' :: data))).reverse ++ ['_', 'G', 'P']

/-- The `.replace(/_GP$/, '')` step of `decryptData`: drop a final `_GP` if
present. -/
def stripGP (s : Str) : Str :=
  if ['_', 'G', 'P'] <:+ s then s.take (s.length - 3) else s

/-- `decryptData` from src/js/security.js: strip the `_GP` suffix, reverse,
base64 decode, UTF-8 decode, split on `'|'`, drop the salt part and rejoin.
A failure in `atob` or the UTF-8 decode lands in the `catch` branch, which
returns the input unchanged. -/
def decryptData (enc : Str) : Str :=
  match atobF (stripGP enc).reverse with
  | none => enc
  | some bytes =>
    match utf8Decode bytes with
    | none => enc
    | some decoded =>
      if (jsSplit '|' decoded).length > 1 then
        jsJoin '|' ((jsSplit '|' decoded).drop 1)
      else decoded
/-! ### JSON values and `JSON.parse`

`JSON.parse` is the platform parser used by `loadCart` and `checkRateLimit`.
It is modelled by an executable recursive-descent parser over the JSON
grammar; `none` models a thrown `SyntaxError`.  Numeric literals are modelled
as integers (the code only ever stores integer timestamps and quantities;
floating point is out of scope). -/

inductive Json where
  | null : Json
  | bool (b : Bool) : Json
  | num (n : Int) : Json
  | str (s : Str) : Json
  | arr (elems : List Json) : Json
  | obj (fields : List (Str × Json)) : Json

/-- JSON insignificant whitespace. -/
def jsonWs (c : Char) : Bool := c == ' ' || c == '\t' || c == '\n' || c == '\r'

/-- Skips leading JSON whitespace. -/
def skipWs (s : Str) : Str := s.dropWhile jsonWs

/-- Value of one hexadecimal digit. -/
def hexVal (c : Char) : Option Nat :=
  if '0' ≤ c ∧ c ≤ '9' then some (c.toNat - 48)
  else if 'a' ≤ c ∧ c ≤ 'f' then some (c.toNat - 87)
  else if 'A' ≤ c ∧ c ≤ 'F' then some (c.toNat - 55)
  else none

/-- Parses the body of a JSON string literal after the opening quote, up to and
including the closing quote; returns the decoded characters and the remaining
input.  `\uXXXX` escapes denoting surrogate halves fall outside Lean `Char`
and decode to the default character, a boundary of the model. -/
def parseStrBody : Str → Option (Str × Str)
  | [] => none
  | '"' :: rest => some ([], rest)
  | '\\' :: esc =>
    match esc with
    | '"' :: rest => (parseStrBody rest).map (fun pr => ('"' :: pr.1, pr.2))
    | '\\' :: rest => (parseStrBody rest).map (fun pr => ('\\' :: pr.1, pr.2))
    | '/' :: rest => (parseStrBody rest).map (fun pr => ('/' :: pr.1, pr.2))
    | 'b' :: rest => (parseStrBody rest).map (fun pr => ('\x08' :: pr.1, pr.2))
    | 'f' :: rest => (parseStrBody rest).map (fun pr => ('\x0C' :: pr.1, pr.2))
    | 'n' :: rest => (parseStrBody rest).map (fun pr => ('\n' :: pr.1, pr.2))
    | 'r' :: rest => (parseStrBody rest).map (fun pr => ('\x0D' :: pr.1, pr.2))
    | 't' :: rest => (parseStrBody rest).map (fun pr => ('\t' :: pr.1, pr.2))
    | 'u' :: h1 :: h2 :: h3 :: h4 :: rest => do
      let v1 ← hexVal h1
      let v2 ← hexVal h2
      let v3 ← hexVal h3
      let v4 ← hexVal h4
      (parseStrBody rest).map
        (fun pr => (Char.ofNat (v1 * 4096 + v2 * 256 + v3 * 16 + v4) :: pr.1, pr.2))
    | _ => none
  | c :: rest =>
    if c.toNat < 0x20 then none
    else (parseStrBody rest).map (fun pr => (c :: pr.1, pr.2))

/-- Numeric value of a digit string. -/
def digitsToNat (ds : Str) : Nat := ds.foldl (fun a c => a * 10 + (c.toNat - 48)) 0

/-- Parses an unsigned JSON integer literal (rejecting leading zeros, as the
JSON grammar does). -/
def parseNumNat (s : Str) : Option (Nat × Str) :=
  if s.takeWhile Char.isDigit = [] then none
  else if (s.takeWhile Char.isDigit).head? = some '0' ∧
      (s.takeWhile Char.isDigit).length > 1 then none
  else some (digitsToNat (s.takeWhile Char.isDigit), s.dropWhile Char.isDigit)

/-- Parses a JSON integer literal with optional leading minus sign. -/
def parseJsonNum : Str → Option (Int × Str)
  | '-' :: rest => (parseNumNat rest).map (fun pr => (-(pr.1 : Int), pr.2))
  | s => (parseNumNat s).map (fun pr => ((pr.1 : Int), pr.2))

mutual

/-- Parses one JSON value from the input; fuel bounds the nesting depth. -/
def parseValue : Nat → Str → Option (Json × Str)
  | 0, _ => none
  | fuel + 1, s =>
    match skipWs s with
    | 'n' :: 'u' :: 'l' :: 'l' :: rest => some (.null, rest)
    | 't' :: 'r' :: 'u' :: 'e' :: rest => some (.bool true, rest)
    | 'f' :: 'a' :: 'l' :: 's' :: 'e' :: rest => some (.bool false, rest)
    | '"' :: rest => (parseStrBody rest).map (fun pr => (.str pr.1, pr.2))
    | '[' :: rest => parseArr fuel rest
    | '\x7b' :: rest => parseObj fuel rest
    | s' => (parseJsonNum s').map (fun pr => (.num pr.1, pr.2))

/-- Parses the elements of a JSON array after the opening bracket. -/
def parseArr : Nat → Str → Option (Json × Str)
  | 0, _ => none
  | fuel + 1, s =>
    match skipWs s with
    | ']' :: rest => some (.arr [], rest)
    | s' => do
      let (v, r) ← parseValue fuel s'
      let (vs, r') ← parseArrTail fuel r
      pure (.arr (v :: vs), r')

/-- Parses `, value`* `]` after the first element of a JSON array. -/
def parseArrTail : Nat → Str → Option (List Json × Str)
  | 0, _ => none
  | fuel + 1, s =>
    match skipWs s with
    | ']' :: rest => some ([], rest)
    | ',' :: rest => do
      let (v, r) ← parseValue fuel rest
      let (vs, r') ← parseArrTail fuel r
      pure (v :: vs, r')
    | _ => none

/-- Parses the members of a JSON object after the opening brace. -/
def parseObj : Nat → Str → Option (Json × Str)
  | 0, _ => none
  | fuel + 1, s =>
    match skipWs s with
    | '\x7d' :: rest => some (.obj [], rest)
    | s' => do
      let (kv, r) ← parseMember fuel s'
      let (kvs, r') ← parseObjTail fuel r
      pure (.obj (kv :: kvs), r')

/-- Parses one `"key": value` member of a JSON object. -/
def parseMember : Nat → Str → Option ((Str × Json) × Str)
  | 0, _ => none
  | fuel + 1, s =>
    match skipWs s with
    | '"' :: rest => do
      let (k, r) ← parseStrBody rest
      match skipWs r with
      | ':' :: r2 => do
        let (v, r3) ← parseValue fuel r2
        pure ((k, v), r3)
      | _ => none
    | _ => none

/-- Parses `, member`* `}` after the first member of a JSON object. -/
def parseObjTail : Nat → Str → Option (List (Str × Json) × Str)
  | 0, _ => none
  | fuel + 1, s =>
    match skipWs s with
    | '\x7d' :: rest => some ([], rest)
    | ',' :: rest => do
      let (kv, r) ← parseMember fuel rest
      let (kvs, r') ← parseObjTail fuel r
      pure (kv :: kvs, r')
    | _ => none

end

/-- The `JSON.parse` builtin: parse a complete JSON document; `none` models
the thrown `SyntaxError`.  The fuel `2 * s.length + 2` exceeds the maximal
possible nesting depth of the input. -/
def jsonParse (s : Str) : Option Json :=
  match parseValue (2 * s.length + 2) s with
  | none => none
  | some (v, rest) => if skipWs rest = [] then some v else none

/-! ### Cart data model (src/js/cart.js)

`APP_CONFIG.cartStorageKey` is `'cart'` (src/js/api.js); the storage cell
under that key is passed in explicitly as an `Option Str` (absent or the
stored string). -/

/-- A catalog product as consumed by the cart: a stable identifier and an
optional `price` field (`product.price || 0` in `addItem` snapshots 0 when
the field is absent, and 0 when it is 0, which `Option.getD 0` matches). -/
structure Product where
  id : Int
  price : Option Int
deriving DecidableEq

/-- One cart line: `{product, quantity, unitPrice}`. -/
structure CartItem where
  product : Product
  quantity : Int
  unitPrice : Int
deriving DecidableEq

/-- The product identifiers of a cart, in order. -/
def cartIds (cart : List CartItem) : List Int := cart.map (fun it => it.product.id)

/-- JavaScript `cart.find(item => item.product.id === pid)`. -/
def findItem (cart : List CartItem) (pid : Int) : Option CartItem :=
  cart.find? (fun it => it.product.id == pid)

/-- In-place `existingItem.quantity += quantity` on the first line whose
product identifier matches, as `Array.prototype.find` returns a live
reference that `addItem`/`updateQuantity` mutate. -/
def bumpFirst (pid delta : Int) : List CartItem → List CartItem
  | [] => []
  | it :: rest =>
    if it.product.id == pid then { it with quantity := it.quantity + delta } :: rest
    else it :: bumpFirst pid delta rest

/-- `addItem` from src/js/cart.js lines 32-47: merge into an existing line by
incrementing its quantity, or push a new line with `unitPrice` snapshotted
from `product.price || 0`.  The returned list is also the state persisted by
the trailing `saveCart()`. -/
def addItem (cart : List CartItem) (product : Product) (quantity : Int) : List CartItem :=
  match cart.find? (fun it => it.product.id == product.id) with
  | some _ => bumpFirst product.id quantity cart
  | none =>
    cart ++ [{ product := product, quantity := quantity, unitPrice := product.price.getD 0 }]

/-- `removeItem` from src/js/cart.js lines 53-57: keep the lines whose
product identifier differs. -/
def removeItem (cart : List CartItem) (productId : Int) : List CartItem :=
  cart.filter (fun it => !(it.product.id == productId))

/-- `updateQuantity` from src/js/cart.js lines 64-78: if a line matches, add
`change` to its quantity in place; if the new quantity is ≤ 0 delegate to
`removeItem`, otherwise persist; no-op when no line matches. -/
def updateQuantity (cart : List CartItem) (productId change : Int) : List CartItem :=
  match cart.find? (fun it => it.product.id == productId) with
  | none => cart
  | some item =>
    if item.quantity + change ≤ 0 then removeItem (bumpFirst productId change cart) productId
    else bumpFirst productId change cart

/-- `clearCart` from src/js/cart.js lines 101-105. -/
def clearCart : List CartItem := []

/-- `getItems` from src/js/cart.js lines 111-113. -/
def getItems (cart : List CartItem) : List CartItem := cart

/-- `getTotal` from src/js/cart.js lines 84-88. -/
def getTotal (cart : List CartItem) : Int :=
  cart.foldl (fun sum it => sum + it.unitPrice * it.quantity) 0

/-- `getItemCount` from src/js/cart.js lines 94-96. -/
def getItemCount (cart : List CartItem) : Int :=
  cart.foldl (fun sum it => sum + it.quantity) 0

/-- `loadCart` from src/js/cart.js lines 15-18:
`cartJSON ? JSON.parse(cartJSON) : []`.  `stored` is the storage cell under
the cart key (`none` when absent); the empty string is falsy in JavaScript,
so it also yields the empty array.  There is no try/catch around
`JSON.parse`, so a parse failure propagates: it is modelled as
`Except.error`. -/
def loadCart (stored : Option Str) : Except Unit Json :=
  match stored with
  | none => .ok (.arr [])
  | some s =>
    if s.isEmpty then .ok (.arr [])
    else
      match jsonParse s with
      | some v => .ok v
      | none => .error ()

/-! ### Rate limiting (src/js/security.js lines 234-253) -/

/-- Core of `checkRateLimit`, over the already-parsed timestamp sequence for
the key: filter the attempts to those within the window, reject without
persisting when the filtered count reaches `maxAttempts`, otherwise append
`now` and persist.  Returns the allowed flag and the stored sequence after
the call (unchanged on rejection, since `setItem` is only reached on the
allowed path). -/
def checkRateLimit (attempts : List Int) (now : Int) (maxAttempts : Nat)
    (windowMs : Int) : Bool × List Int :=
  if maxAttempts ≤ (attempts.filter (fun t => decide (now - t < windowMs))).length then
    (false, attempts)
  else
    (true, attempts.filter (fun t => decide (now - t < windowMs)) ++ [now])

/-- The read step of `checkRateLimit`:
`JSON.parse(sessionStorage.getItem(rateLimitKey) || '[]')`.  An absent key or
an empty stored string (both falsy) parse `'[]'`; anything else is fed to
`JSON.parse` directly with no try/catch, so a malformed string raises
(modelled as `Except.error`). -/
def parseAttempts (stored : Option Str) : Except Unit Json :=
  match stored with
  | none => .ok (.arr [])
  | some s =>
    if s.isEmpty then .ok (.arr [])
    else
      match jsonParse s with
      | some v => .ok v
      | none => .error ()

/-- Extracts the timestamps from the parsed stored value.  A non-array value
makes `attempts.filter` throw `TypeError` (modelled as `Except.error`);
non-numeric array elements compare as `NaN` against the window and are
filtered out, which dropping them here reproduces. -/
def jsonTimestamps : Json → Except Unit (List Int)
  | .arr vs =>
    .ok (vs.filterMap (fun v => match v with | .num n => some n | _ => none))
  | _ => .error ()

/-- `checkRateLimit` from src/js/security.js including the storage read:
parse the stored value for the key, extract the timestamps and run the core
check. -/
def checkRateLimitStored (stored : Option Str) (now : Int) (maxAttempts : Nat)
    (windowMs : Int) : Except Unit (Bool × List Int) := do
  let v ← parseAttempts stored
  let ts ← jsonTimestamps v
  pure (checkRateLimit ts now maxAttempts windowMs)

/-- Replays a sequence of `addItem` calls on an initially empty cart. -/
def applyAdds (adds : List (Product × Int)) : List CartItem :=
  adds.foldl (fun c pq => addItem c pq.1 pq.2) []

/-! ### `constantTimeEqual` (src/js/security.js lines 322-333)

JavaScript `length` and `charCodeAt` work on UTF-16 code units, so the
comparison is modelled over the UTF-16 encoding of the two strings. -/

/-- UTF-16 code units of one Unicode scalar value. -/
def utf16EncodeChar (c : Char) : List Nat :=
  if c.toNat < 0x10000 then [c.toNat]
  else [0xD800 + (c.toNat - 0x10000) / 1024, 0xDC00 + (c.toNat - 0x10000) % 1024]

/-- UTF-16 code units of a string, as `charCodeAt` enumerates them. -/
def utf16Encode (s : Str) : List Nat := s.flatMap utf16EncodeChar

/-- `constantTimeEqual` from src/js/security.js: `false` on differing
lengths, otherwise the OR-accumulated XOR of corresponding code units must
be zero. -/
def constantTimeEqual (a b : Str) : Bool :=
  if (utf16Encode a).length ≠ (utf16Encode b).length then false
  else
    (List.zipWith (fun x y => x ^^^ y) (utf16Encode a) (utf16Encode b)).foldl
      (fun r x => r ||| x) 0 == 0

/-! ### Round-trip lemmas for the encoding pipeline -/

theorem b64v_b64c : ∀ n, n < 64 → b64v (b64c n) = some n := by decide

theorem b64c_ne_eq : ∀ n, n < 64 → b64c n ≠ '=' := by decide

theorem atobF_btoaF_aux (fuel : Nat) :
    ∀ bs : List Nat, bs.length ≤ fuel → (∀ b ∈ bs, b < 256) →
      atobF (btoaF bs) = some bs := by
  induction fuel with
  | zero =>
    intro bs hlen _
    have : bs = [] := List.length_eq_zero.mp (Nat.le_zero.mp hlen)
    subst this
    rfl
  | succ fuel ih =>
    intro bs hlen hb
    match bs with
    | [] => rfl
    | [b1] =>
      have h1 : b1 < 256 := hb b1 (by simp)
      simp only [btoaF, atobF]
      rw [b64v_b64c _ (by omega), b64v_b64c _ (by omega)]
      simp only [Option.bind_eq_bind, Option.some_bind]
      rw [if_pos (by simp)]
      simp only [Option.pure_def, Option.some.injEq, List.cons.injEq, and_true]
      omega
    | [b1, b2] =>
      have h1 : b1 < 256 := hb b1 (by simp)
      have h2 : b2 < 256 := hb b2 (by simp)
      simp only [btoaF, atobF]
      rw [b64v_b64c _ (by omega), b64v_b64c _ (by omega)]
      simp only [Option.bind_eq_bind, Option.some_bind]
      rw [if_neg (by intro h; exact b64c_ne_eq _ (by omega) h.1)]
      rw [b64v_b64c _ (by omega)]
      simp only [Option.some_bind]
      rw [if_pos (by simp)]
      simp only [Option.pure_def, Option.some.injEq, List.cons.injEq, and_true]
      constructor <;> omega
    | b1 :: b2 :: b3 :: rest =>
      have h1 : b1 < 256 := hb b1 (by simp)
      have h2 : b2 < 256 := hb b2 (by simp)
      have h3 : b3 < 256 := hb b3 (by simp)
      have hrest : atobF (btoaF rest) = some rest := by
        refine ih rest ?_ ?_
        · simp only [List.length_cons] at hlen; omega
        · intro b hbmem; exact hb b (by simp [hbmem])
      simp only [btoaF, List.cons_append, atobF]
      rw [b64v_b64c _ (by omega), b64v_b64c _ (by omega)]
      simp only [Option.bind_eq_bind, Option.some_bind]
      rw [if_neg (by intro h; exact b64c_ne_eq _ (by omega) h.1)]
      rw [b64v_b64c _ (by omega)]
      simp only [Option.some_bind]
      rw [if_neg (by intro h; exact b64c_ne_eq _ (by omega) h.1)]
      rw [b64v_b64c _ (by omega)]
      simp only [Option.some_bind]
      rw [hrest]
      simp only [Option.pure_def, Option.some_bind, Option.some.injEq, List.cons.injEq,
        and_true]
      refine ⟨by omega, by omega, by omega⟩

theorem atobF_btoaF (bs : List Nat) (hb : ∀ b ∈ bs, b < 256) :
    atobF (btoaF bs) = some bs :=
  atobF_btoaF_aux bs.length bs le_rfl hb

theorem utf8EncodeChar_lt_256 (c : Char) : ∀ b ∈ utf8EncodeChar c, b < 256 := by
  have hval : c.toNat < 0xd800 ∨ (0xdfff < c.toNat ∧ c.toNat < 0x110000) := c.valid
  unfold utf8EncodeChar
  split
  · intro b hbmem; simp at hbmem; omega
  · split
    · intro b hbmem; simp at hbmem; rcases hbmem with h | h <;> omega
    · split
      · intro b hbmem; simp at hbmem
        rcases hbmem with h | h | h <;> omega
      · intro b hbmem; simp at hbmem
        rcases hbmem with h | h | h | h <;> omega

theorem utf8Encode_lt_256 (s : Str) : ∀ b ∈ utf8Encode s, b < 256 := by
  intro b hbmem
  simp only [utf8Encode, List.mem_flatMap] at hbmem
  obtain ⟨c, _, hbc⟩ := hbmem
  exact utf8EncodeChar_lt_256 c b hbc

theorem utf8DecodeOne_encodeChar (c : Char) (rest : List Nat) :
    utf8DecodeOne (utf8EncodeChar c ++ rest) = some (c.toNat, rest) := by
  have hval : c.toNat < 0xd800 ∨ (0xdfff < c.toNat ∧ c.toNat < 0x110000) := c.valid
  unfold utf8EncodeChar
  by_cases h1 : c.toNat < 0x80
  · rw [if_pos h1]
    simp only [List.cons_append, List.nil_append, utf8DecodeOne]
    rw [if_pos h1]
  · rw [if_neg h1]
    by_cases h2 : c.toNat < 0x800
    · rw [if_pos h2]
      simp only [List.cons_append, List.nil_append, utf8DecodeOne]
      rw [if_neg (by omega), if_neg (by omega), if_pos (by omega)]
      rw [utf8Two, if_pos (by omega)]
      simp only [Option.some.injEq, Prod.mk.injEq, and_true]
      omega
    · rw [if_neg h2]
      by_cases h3 : c.toNat < 0x10000
      · rw [if_pos h3]
        simp only [List.cons_append, List.nil_append, utf8DecodeOne]
        rw [if_neg (by omega), if_neg (by omega), if_neg (by omega), if_pos (by omega)]
        rw [utf8Three, if_pos (by constructor <;> omega), if_neg (by omega)]
        simp only [Option.some.injEq, Prod.mk.injEq, and_true]
        omega
      · rw [if_neg h3]
        simp only [List.cons_append, List.nil_append, utf8DecodeOne]
        rw [if_neg (by omega), if_neg (by omega), if_neg (by omega), if_neg (by omega),
          if_pos (by omega)]
        rw [utf8Four, if_pos (by refine ⟨by omega, by omega, by omega⟩), if_neg (by omega)]
        simp only [Option.some.injEq, Prod.mk.injEq, and_true]
        omega

theorem utf8EncodeChar_ne_nil (c : Char) : utf8EncodeChar c ≠ [] := by
  unfold utf8EncodeChar
  split
  · simp
  · split
    · simp
    · split <;> simp

theorem utf8DecodeAux_encode (s : Str) :
    ∀ fuel : Nat, (utf8Encode s).length ≤ fuel →
      utf8DecodeAux fuel (utf8Encode s) = some s := by
  induction s with
  | nil =>
    intro fuel _
    rw [show utf8Encode [] = [] from rfl]
    cases fuel <;> rfl
  | cons c s ih =>
    intro fuel hfuel
    have henc : utf8Encode (c :: s) = utf8EncodeChar c ++ utf8Encode s := by
      simp [utf8Encode]
    obtain ⟨b, bs, hb⟩ := List.exists_cons_of_ne_nil (utf8EncodeChar_ne_nil c)
    rw [henc, hb] at hfuel ⊢
    match fuel with
    | 0 => simp at hfuel
    | fuel + 1 =>
      rw [List.cons_append, utf8DecodeAux, ← List.cons_append, ← hb,
        utf8DecodeOne_encodeChar c (utf8Encode s)]
      simp only []
      rw [ih fuel (by simp only [List.cons_append, List.length_cons,
        List.length_append] at hfuel ⊢; omega)]
      rw [Char.ofNat_toNat]
      rfl

theorem utf8Decode_utf8Encode (s : Str) : utf8Decode (utf8Encode s) = some s :=
  utf8DecodeAux_encode s (utf8Encode s).length le_rfl

/-! ### Lemmas about split, join, the salt and the suffix marker -/

theorem jsSplit_ne_nil (sep : Char) (s : Str) : jsSplit sep s ≠ [] := by
  cases s with
  | nil => simp [jsSplit]
  | cons c rest =>
    rw [jsSplit]
    cases h : jsSplit sep rest with
    | nil => simp
    | cons p ps => by_cases hc : c = sep <;> simp [hc]

theorem jsSplit_append_sep (sep : Char) (ys : Str) :
    ∀ xs : Str, sep ∉ xs → jsSplit sep (xs ++ sep :: ys) = xs :: jsSplit sep ys := by
  intro xs
  induction xs with
  | nil =>
    intro _
    rw [List.nil_append, jsSplit]
    cases h : jsSplit sep ys with
    | nil => exact absurd h (jsSplit_ne_nil sep ys)
    | cons p ps => simp
  | cons c xs ih =>
    intro hmem
    have hc : ¬ c = sep := fun h => hmem (by simp [h])
    have hxs : sep ∉ xs := fun h => hmem (List.mem_cons_of_mem _ h)
    rw [List.cons_append, jsSplit, ih hxs]
    simp [hc]

theorem jsJoin_cons_cons (sep : Char) (p q : Str) (ps : List Str) :
    jsJoin sep (p :: q :: ps) = p ++ sep :: jsJoin sep (q :: ps) := rfl

theorem jsJoin_jsSplit (sep : Char) (s : Str) : jsJoin sep (jsSplit sep s) = s := by
  induction s with
  | nil => rfl
  | cons c rest ih =>
    rw [jsSplit]
    cases h : jsSplit sep rest with
    | nil => exact absurd h (jsSplit_ne_nil sep rest)
    | cons p ps =>
      rw [h] at ih
      simp only []
      by_cases hc : c = sep
      · subst hc
        rw [if_pos rfl, jsJoin_cons_cons, List.nil_append, ih]
      · simp only [if_neg hc]
        cases ps with
        | nil =>
          simp only [jsJoin] at ih ⊢
          rw [ih]
        | cons q qs =>
          rw [jsJoin_cons_cons, ← ih, jsJoin_cons_cons]
          simp

theorem base36Digit_ne_pipe (k : Nat) : base36Digit k ≠ '|' := by
  have h36 : ∀ k, k < 36 → base36Digit k ≠ '|' := by decide
  rcases Nat.lt_or_ge k 36 with h | h
  · exact h36 k h
  · unfold base36Digit
    rw [List.getD_eq_default]
    · decide
    · simpa using h

theorem natToBase36_ne_pipe (n : Nat) : '|' ∉ natToBase36 n := by
  induction n using Nat.strong_induction_on with
  | _ n ih =>
    rw [natToBase36]
    split
    · intro hmem
      rw [List.mem_singleton] at hmem
      exact base36Digit_ne_pipe n hmem.symm
    · intro hmem
      rw [List.mem_append] at hmem
      rcases hmem with hmem | hmem
      · exact ih (n / 36) (Nat.div_lt_self (by omega) (by omega)) hmem
      · rw [List.mem_singleton] at hmem
        exact base36Digit_ne_pipe _ hmem.symm

theorem saltOf_ne_pipe (ts : Nat) : '|' ∉ saltOf ts := by
  intro hmem
  rw [saltOf] at hmem
  simp only [List.mem_cons] at hmem
  rcases hmem with h | h | h | h
  · exact absurd h (by decide)
  · exact absurd h (by decide)
  · exact absurd h (by decide)
  · exact natToBase36_ne_pipe ts h

theorem stripGP_append (xs : Str) : stripGP (xs ++ ['_', 'G', 'P']) = xs := by
  unfold stripGP
  rw [if_pos (List.suffix_append xs ['_', 'G', 'P'])]
  rw [List.take_left' (by simp)]

/-! ### Claim C1 -/

/-- C1: for every Unicode string `s` (including the empty string and strings
containing the internal separator character `'|'`),
`decryptData (encryptData s) = s`, regardless of the `Date.now()`-derived
salt value generated inside `encryptData`. -/
theorem decryptData_encryptData (ts : Nat) (data : Str) :
    decryptData (encryptData ts data) = data := by
  unfold encryptData decryptData
  rw [stripGP_append, List.reverse_reverse, atobF_btoaF _ (utf8Encode_lt_256 _)]
  simp only []
  rw [utf8Decode_utf8Encode]
  simp only []
  rw [jsSplit_append_sep '|' data (saltOf ts) (saltOf_ne_pipe ts)]
  have hlen : 0 < (jsSplit '|' data).length :=
    List.length_pos.mpr (jsSplit_ne_nil '|' data)
  rw [if_pos (by simp only [List.length_cons]; omega)]
  rw [List.drop_one, List.tail_cons, jsJoin_jsSplit]
/-! ### Claims C2 and C10: `loadCart` -/

/-- C2 counterexample: the claim says a stored string that fails to parse as
JSON yields the empty cart without throwing; on the stored string `"oops"`
the code reaches `JSON.parse` with no try/catch around it, so the parse
failure propagates to the caller. -/
theorem loadCart_malformed_cex : loadCart (some "oops".data) = Except.error () := rfl

/-- C2 (amended): `loadCart` returns the empty cart when no snapshot is
stored (or the stored string is empty, which is falsy); when the stored
string fails to parse as JSON, the `JSON.parse` exception propagates to the
caller instead of being swallowed. -/
theorem loadCart_spec :
    loadCart none = Except.ok (Json.arr []) ∧
    (∀ s : Str, s.isEmpty = false → jsonParse s = none →
      loadCart (some s) = Except.error ()) := by
  constructor
  · rfl
  · intro s hne hparse
    unfold loadCart
    simp only []
    rw [if_neg (by simp [hne]), hparse]

theorem loadCart_spec_witness :
    loadCart none = Except.ok (Json.arr []) ∧
    loadCart (some "nope".data) = Except.error () :=
  ⟨loadCart_spec.1, loadCart_spec.2 "nope".data rfl rfl⟩

/-- C10: `loadCart` performs no shape validation on a successfully parsed
snapshot: every stored string that parses as JSON becomes the cart state
verbatim, whatever its shape. -/
theorem loadCart_no_validation (s : Str) (v : Json)
    (hne : s.isEmpty = false) (hparse : jsonParse s = some v) :
    loadCart (some s) = Except.ok v := by
  unfold loadCart
  simp only []
  rw [if_neg (by simp [hne]), hparse]

theorem loadCart_no_validation_witness :
    loadCart (some "42".data) = Except.ok (Json.num 42) :=
  loadCart_no_validation "42".data (Json.num 42) rfl rfl

/-! ### Claims C3, C7 and C8: `checkRateLimit` -/

/-- C3: with no recorded attempts, four rapid `checkRateLimit(key, 3, 1000)`
calls (each within 1000 ms of the first) return true, true, true, false; the
rejecting call leaves the stored sequence unchanged, appending nothing; and a
call made after the window has fully elapsed returns true again. -/
theorem checkRateLimit_sequence (t0 t1 t2 t3 t4 : Int)
    (h01 : t0 ≤ t1) (h12 : t1 ≤ t2) (h23 : t2 ≤ t3) (hwin : t3 - t0 < 1000)
    (hgap : 1000 ≤ t4 - t2) :
    checkRateLimit [] t0 3 1000 = (true, [t0]) ∧
    checkRateLimit [t0] t1 3 1000 = (true, [t0, t1]) ∧
    checkRateLimit [t0, t1] t2 3 1000 = (true, [t0, t1, t2]) ∧
    checkRateLimit [t0, t1, t2] t3 3 1000 = (false, [t0, t1, t2]) ∧
    checkRateLimit [t0, t1, t2] t4 3 1000 = (true, [t4]) := by
  refine ⟨?_, ?_, ?_, ?_, ?_⟩
  · simp [checkRateLimit]
  · simp [checkRateLimit, List.filter, show t1 - t0 < 1000 by omega]
  · simp [checkRateLimit, List.filter, show t2 - t0 < 1000 by omega,
      show t2 - t1 < 1000 by omega]
  · simp [checkRateLimit, List.filter, show t3 - t0 < 1000 by omega,
      show t3 - t1 < 1000 by omega, show t3 - t2 < 1000 by omega]
  · simp [checkRateLimit, List.filter, show ¬ t4 - t0 < 1000 by omega,
      show ¬ t4 - t1 < 1000 by omega, show ¬ t4 - t2 < 1000 by omega]

theorem checkRateLimit_sequence_witness :
    checkRateLimit [] 0 3 1000 = (true, [0]) ∧
    checkRateLimit [0] 1 3 1000 = (true, [0, 1]) ∧
    checkRateLimit [0, 1] 2 3 1000 = (true, [0, 1, 2]) ∧
    checkRateLimit [0, 1, 2] 3 3 1000 = (false, [0, 1, 2]) ∧
    checkRateLimit [0, 1, 2] 1002 3 1000 = (true, [1002]) :=
  checkRateLimit_sequence 0 1 2 3 1002 (by decide) (by decide) (by decide)
    (by decide) (by decide)

/-- C7 counterexample: a rejecting call does not persist the purge: with
stored sequence `[0, 1500, 1600, 1700]`, a check at time 2000 with window
1000 and limit 3 rejects, and the stored sequence afterwards still contains
the timestamp 0, which is 2000 ms old. -/
theorem checkRateLimit_stale_cex :
    ¬ (∀ t ∈ (checkRateLimit [0, 1500, 1600, 1700] 2000 3 1000).2,
        2000 - t < 1000) := by
  decide

/-- C7 (amended): stale timestamps are purged from the in-memory copy on
every check, but the purge is persisted only by allowed calls: after an
allowed call the stored sequence contains only timestamps within the window,
while a rejecting call leaves the stored value unchanged, stale entries
included. -/
theorem checkRateLimit_purge (attempts : List Int) (now : Int) (m : Nat)
    (w : Int) (hw : 0 < w) :
    ((checkRateLimit attempts now m w).1 = true →
      ∀ t ∈ (checkRateLimit attempts now m w).2, now - t < w) ∧
    ((checkRateLimit attempts now m w).1 = false →
      (checkRateLimit attempts now m w).2 = attempts) := by
  unfold checkRateLimit
  by_cases hc : m ≤ (attempts.filter (fun t => decide (now - t < w))).length
  · rw [if_pos hc]
    refine ⟨fun hfalse => ?_, fun _ => rfl⟩
    simp at hfalse
  · rw [if_neg hc]
    refine ⟨fun _ t ht => ?_, fun htrue => ?_⟩
    · rw [List.mem_append] at ht
      rcases ht with ht | ht
      · exact of_decide_eq_true (List.mem_filter.mp ht).2
      · rw [List.mem_singleton] at ht
        subst ht
        omega
    · simp at htrue

theorem checkRateLimit_purge_witness :
    ((checkRateLimit [0] 10 3 1000).1 = true →
      ∀ t ∈ (checkRateLimit [0] 10 3 1000).2, 10 - t < 1000) ∧
    ((checkRateLimit [0] 10 3 1000).1 = false →
      (checkRateLimit [0] 10 3 1000).2 = [0]) :=
  checkRateLimit_purge [0] 10 3 1000 (by decide)

/-- C8 counterexample: the claim says a malformed stored string is treated as
an empty attempt sequence without throwing; on the stored string `"oops"`
the code reaches `JSON.parse` with no try/catch (the `|| '[]'` fallback only
covers null and the empty string), so the parse failure propagates. -/
theorem checkRateLimitStored_malformed_cex :
    checkRateLimitStored (some "oops".data) 0 3 1000 = Except.error () := rfl

/-- C8 (amended): `checkRateLimit` treats the stored value as an empty
attempt sequence when the key is absent (and when the stored string is
empty, both falsy); a stored string that is not valid JSON makes
`JSON.parse` throw and the exception propagates to the caller. -/
theorem checkRateLimitStored_spec (now : Int) (m : Nat) (w : Int) :
    checkRateLimitStored none now m w = Except.ok (checkRateLimit [] now m w) ∧
    (∀ s : Str, s.isEmpty = false → jsonParse s = none →
      checkRateLimitStored (some s) now m w = Except.error ()) := by
  constructor
  · rfl
  · intro s hne hparse
    have hp : parseAttempts (some s) = Except.error () := by
      unfold parseAttempts
      simp only []
      rw [if_neg (by simp [hne]), hparse]
    unfold checkRateLimitStored
    rw [hp]
    rfl

theorem checkRateLimitStored_spec_witness :
    checkRateLimitStored none 7 3 1000 = Except.ok (checkRateLimit [] 7 3 1000) ∧
    checkRateLimitStored (some "nah".data) 7 3 1000 = Except.error () :=
  ⟨(checkRateLimitStored_spec 7 3 1000).1,
    (checkRateLimitStored_spec 7 3 1000).2 "nah".data rfl rfl⟩

/-! ### Cart lemmas -/

theorem find?_cons_pos {α : Type} (p : α → Bool) (a : α) (l : List α)
    (h : p a = true) : (a :: l).find? p = some a := by
  rw [List.find?_cons, h]

theorem find?_cons_neg {α : Type} (p : α → Bool) (a : α) (l : List α)
    (h : ¬ p a = true) : (a :: l).find? p = l.find? p := by
  rw [List.find?_cons, Bool.of_not_eq_true h]

theorem find?_some_pred {α : Type} (p : α → Bool) (l : List α) (a : α)
    (h : l.find? p = some a) : p a = true :=
  List.find?_some h

theorem cartIds_bumpFirst (pid d : Int) (cart : List CartItem) :
    cartIds (bumpFirst pid d cart) = cartIds cart := by
  induction cart with
  | nil => rfl
  | cons it rest ih =>
    unfold bumpFirst
    by_cases h : it.product.id == pid
    · rw [if_pos h]
      simp [cartIds]
    · rw [if_neg h]
      simp only [cartIds, List.map_cons] at ih ⊢
      rw [ih]

theorem length_bumpFirst (pid d : Int) (cart : List CartItem) :
    (bumpFirst pid d cart).length = cart.length := by
  induction cart with
  | nil => rfl
  | cons it rest ih =>
    unfold bumpFirst
    by_cases h : it.product.id == pid
    · rw [if_pos h]
      simp
    · rw [if_neg h]
      simp only [List.length_cons]
      rw [ih]

theorem findItem_eq_none (cart : List CartItem) (pid : Int)
    (h : pid ∉ cartIds cart) :
    cart.find? (fun it => it.product.id == pid) = none := by
  rw [List.find?_eq_none]
  intro it hit hbeq
  rw [beq_iff_eq] at hbeq
  exact h (List.mem_map.mpr ⟨it, hit, hbeq⟩)

theorem findItem_isSome (cart : List CartItem) (pid : Int)
    (h : pid ∈ cartIds cart) :
    ∃ it, cart.find? (fun x => x.product.id == pid) = some it := by
  rw [← Option.isSome_iff_exists, List.find?_isSome]
  obtain ⟨it, hit, hid⟩ := List.mem_map.mp h
  exact ⟨it, hit, by simp [hid]⟩

theorem find?_bumpFirst (pid d : Int) (cart : List CartItem) (item : CartItem)
    (h : cart.find? (fun x => x.product.id == pid) = some item) :
    (bumpFirst pid d cart).find? (fun x => x.product.id == pid) =
      some { item with quantity := item.quantity + d } := by
  induction cart with
  | nil => simp at h
  | cons it rest ih =>
    by_cases hb : it.product.id == pid
    · rw [find?_cons_pos (fun x => x.product.id == pid) it rest hb] at h
      injection h with h
      subst h
      unfold bumpFirst
      rw [if_pos hb, find?_cons_pos (fun x => x.product.id == pid)
        { it with quantity := it.quantity + d } rest hb]
    · rw [find?_cons_neg (fun x => x.product.id == pid) it rest hb] at h
      unfold bumpFirst
      rw [if_neg hb, find?_cons_neg (fun x => x.product.id == pid) it
        (bumpFirst pid d rest) hb]
      exact ih h

theorem mem_bumpFirst (pid d : Int) (cart : List CartItem) (item it : CartItem)
    (hfind : cart.find? (fun x => x.product.id == pid) = some item)
    (hmem : it ∈ bumpFirst pid d cart) :
    it ∈ cart ∨ it = { item with quantity := item.quantity + d } := by
  induction cart with
  | nil => simp [bumpFirst] at hmem
  | cons hd rest ih =>
    by_cases hb : hd.product.id == pid
    · rw [find?_cons_pos (fun x => x.product.id == pid) hd rest hb] at hfind
      injection hfind with hfind
      subst hfind
      unfold bumpFirst at hmem
      rw [if_pos hb] at hmem
      rcases List.mem_cons.mp hmem with h | h
      · right; exact h
      · left; exact List.mem_cons_of_mem _ h
    · rw [find?_cons_neg (fun x => x.product.id == pid) hd rest hb] at hfind
      unfold bumpFirst at hmem
      rw [if_neg hb] at hmem
      rcases List.mem_cons.mp hmem with h | h
      · left; simp [h]
      · rcases ih hfind h with h' | h'
        · left; exact List.mem_cons_of_mem _ h'
        · right; exact h'

theorem mem_removeItem (cart : List CartItem) (pid : Int) (it : CartItem)
    (h : it ∈ removeItem cart pid) : it ∈ cart ∧ it.product.id ≠ pid := by
  unfold removeItem at h
  have hm := List.mem_filter.mp h
  refine ⟨hm.1, ?_⟩
  simpa using hm.2

theorem removeItem_not_mem (cart : List CartItem) (pid : Int) :
    pid ∉ cartIds (removeItem cart pid) := by
  intro h
  obtain ⟨it, hit, hid⟩ := List.mem_map.mp h
  exact (mem_removeItem cart pid it hit).2 hid

theorem addItem_of_not_mem (cart : List CartItem) (p : Product) (q : Int)
    (h : p.id ∉ cartIds cart) :
    addItem cart p q =
      cart ++ [{ product := p, quantity := q, unitPrice := p.price.getD 0 }] := by
  unfold addItem
  rw [findItem_eq_none cart p.id h]

theorem addItem_of_mem (cart : List CartItem) (p : Product) (q : Int)
    (h : p.id ∈ cartIds cart) :
    addItem cart p q = bumpFirst p.id q cart := by
  unfold addItem
  obtain ⟨it, hfind⟩ := findItem_isSome cart p.id h
  rw [hfind]

theorem find?_append_of_none {α : Type} {p : α → Bool} {l1 l2 : List α}
    (h : l1.find? p = none) : (l1 ++ l2).find? p = l2.find? p := by
  induction l1 with
  | nil => rfl
  | cons a l ih =>
    by_cases hb : p a
    · rw [find?_cons_pos p a l hb] at h
      cases h
    · rw [find?_cons_neg p a l hb] at h
      rw [List.cons_append, find?_cons_neg p a (l ++ l2) hb]
      exact ih h

theorem nodup_cartIds_addItem (cart : List CartItem) (p : Product) (q : Int)
    (h : (cartIds cart).Nodup) : (cartIds (addItem cart p q)).Nodup := by
  by_cases hm : p.id ∈ cartIds cart
  · rw [addItem_of_mem cart p q hm, cartIds_bumpFirst]
    exact h
  · rw [addItem_of_not_mem cart p q hm]
    unfold cartIds
    rw [List.map_append]
    apply List.Nodup.append h (List.nodup_singleton _)
    intro a ha hb
    simp only [List.map_cons, List.map_nil, List.mem_singleton] at hb
    subst hb
    exact hm ha

theorem nodup_cartIds_foldAdds (adds : List (Product × Int)) :
    ∀ cart : List CartItem, (cartIds cart).Nodup →
      (cartIds (adds.foldl (fun c pq => addItem c pq.1 pq.2) cart)).Nodup := by
  induction adds with
  | nil => intro cart h; exact h
  | cons pq adds ih =>
    intro cart h
    exact ih _ (nodup_cartIds_addItem _ _ _ h)

theorem nodup_cartIds_applyAdds (adds : List (Product × Int)) :
    (cartIds (applyAdds adds)).Nodup :=
  nodup_cartIds_foldAdds adds [] (by simp [cartIds])

/-! ### Claim C4 -/

/-- C4: product identifiers stay unique under every sequence of addItem
calls; adding a product whose identifier is present merges into the existing
line instead of appending (the length is unchanged), the merged line's
quantity is the sum of the quantities passed, and its unitPrice is the
snapshot from the first add, not re-read from the later product argument. -/
theorem addItem_unique_merge (adds : List (Product × Int)) (cart : List CartItem)
    (p p' : Product) (q q' : Int) (hnd : (cartIds cart).Nodup) :
    (cartIds (applyAdds adds)).Nodup ∧
    (cartIds (addItem cart p q)).Nodup ∧
    (p.id ∈ cartIds cart → (addItem cart p q).length = cart.length) ∧
    (p.id ∉ cartIds cart → p'.id = p.id →
      findItem (addItem (addItem cart p q) p' q') p.id =
        some { product := p, quantity := q + q', unitPrice := p.price.getD 0 }) := by
  refine ⟨nodup_cartIds_applyAdds adds, nodup_cartIds_addItem cart p q hnd, ?_, ?_⟩
  · intro hm
    rw [addItem_of_mem cart p q hm, length_bumpFirst]
  · intro hm hp'
    rw [addItem_of_not_mem cart p q hm]
    have hfind : List.find? (fun x => x.product.id == p.id)
        (cart ++ [({ product := p, quantity := q, unitPrice := p.price.getD 0 } : CartItem)]) =
        some { product := p, quantity := q, unitPrice := p.price.getD 0 } := by
      rw [find?_append_of_none (findItem_eq_none cart p.id hm)]
      simp
    have hmem2 : p'.id ∈ cartIds (cart ++
        [({ product := p, quantity := q, unitPrice := p.price.getD 0 } : CartItem)]) := by
      rw [hp']
      unfold cartIds
      rw [List.map_append]
      simp
    rw [addItem_of_mem _ p' q' hmem2, hp']
    unfold findItem
    exact find?_bumpFirst p.id q' _ _ hfind

theorem addItem_unique_merge_witness :
    (cartIds (applyAdds [(⟨1, some 10⟩, 2)])).Nodup ∧
    (cartIds (addItem [] ⟨1, some 10⟩ 2)).Nodup ∧
    ((⟨1, some 10⟩ : Product).id ∈ cartIds ([] : List CartItem) →
      (addItem [] ⟨1, some 10⟩ 2).length = ([] : List CartItem).length) ∧
    ((⟨1, some 10⟩ : Product).id ∉ cartIds ([] : List CartItem) →
      (⟨1, some 99⟩ : Product).id = (⟨1, some 10⟩ : Product).id →
      findItem (addItem (addItem [] ⟨1, some 10⟩ 2) ⟨1, some 99⟩ 3)
          (⟨1, some 10⟩ : Product).id =
        some { product := ⟨1, some 10⟩, quantity := 2 + 3,
               unitPrice := (⟨1, some 10⟩ : Product).price.getD 0 }) :=
  addItem_unique_merge [(⟨1, some 10⟩, 2)] [] ⟨1, some 10⟩ ⟨1, some 99⟩ 2 3
    (by simp [cartIds])

/-! ### Claim C5 -/

/-- C5 counterexample: addItem performs no quantity validation, so adding a
new product with quantity -1 persists a cart whose line has a non-positive
quantity, against the claimed invariant. -/
theorem addItem_nonpositive_cex :
    ¬ (∀ it ∈ addItem [] ⟨1, some 10⟩ (-1), 0 < it.quantity) := by
  decide

/-- C5 (amended): removeItem, updateQuantity and clearCart preserve the
positivity of every line quantity, and addItem preserves it when the
quantity argument is positive; addItem itself validates nothing, so a
non-positive quantity argument can put a non-positive line into the
persisted state. -/
theorem cart_ops_positive (cart : List CartItem) (p : Product) (q pid d : Int)
    (hpos : ∀ it ∈ cart, 0 < it.quantity) :
    (0 < q → ∀ it ∈ addItem cart p q, 0 < it.quantity) ∧
    (∀ it ∈ removeItem cart pid, 0 < it.quantity) ∧
    (∀ it ∈ updateQuantity cart pid d, 0 < it.quantity) ∧
    (∀ it ∈ clearCart, 0 < it.quantity) := by
  refine ⟨?_, ?_, ?_, ?_⟩
  · intro hq it hmem
    by_cases hm : p.id ∈ cartIds cart
    · rw [addItem_of_mem cart p q hm] at hmem
      obtain ⟨item, hfind⟩ := findItem_isSome cart p.id hm
      rcases mem_bumpFirst p.id q cart item it hfind hmem with h | h
      · exact hpos it h
      · have : 0 < item.quantity := hpos item (List.mem_of_find?_eq_some hfind)
        rw [h]
        simp only []
        omega
    · rw [addItem_of_not_mem cart p q hm] at hmem
      rcases List.mem_append.mp hmem with h | h
      · exact hpos it h
      · rw [List.mem_singleton] at h
        rw [h]
        exact hq
  · intro it hmem
    exact hpos it (mem_removeItem cart pid it hmem).1
  · intro it hmem
    unfold updateQuantity at hmem
    cases hfind : cart.find? (fun x => x.product.id == pid) with
    | none =>
      rw [hfind] at hmem
      exact hpos it hmem
    | some item =>
      rw [hfind] at hmem
      simp only [] at hmem
      have hitem : 0 < item.quantity := hpos item (List.mem_of_find?_eq_some hfind)
      have hpred : (item.product.id == pid) = true :=
        find?_some_pred (fun x => x.product.id == pid) cart item hfind
      by_cases hle : item.quantity + d ≤ 0
      · rw [if_pos hle] at hmem
        obtain ⟨hmem', hne⟩ := mem_removeItem _ pid it hmem
        rcases mem_bumpFirst pid d cart item it hfind hmem' with h | h
        · exact hpos it h
        · exfalso
          apply hne
          rw [h]
          exact beq_iff_eq.mp hpred
      · rw [if_neg hle] at hmem
        rcases mem_bumpFirst pid d cart item it hfind hmem with h | h
        · exact hpos it h
        · rw [h]
          simp only []
          omega
  · intro it hmem
    simp [clearCart] at hmem

theorem cart_ops_positive_witness :
    ((0:Int) < 1 → ∀ it ∈ addItem [⟨⟨1, some 10⟩, 2, 10⟩] ⟨2, none⟩ 1,
      0 < it.quantity) ∧
    (∀ it ∈ removeItem [⟨⟨1, some 10⟩, 2, 10⟩] 1, 0 < it.quantity) ∧
    (∀ it ∈ updateQuantity [⟨⟨1, some 10⟩, 2, 10⟩] 1 (-5), 0 < it.quantity) ∧
    (∀ it ∈ clearCart, 0 < it.quantity) :=
  cart_ops_positive [⟨⟨1, some 10⟩, 2, 10⟩] ⟨2, none⟩ 1 1 (-5) (by decide)

/-! ### Claim C6 -/

/-- C6: updateQuantity adds the delta to the matching line's quantity when
the identifier is present: if the resulting quantity is ≤ 0 the line is
removed entirely, so getItems no longer contains that identifier; otherwise
the updated line is what a lookup finds afterwards; when the identifier is
absent the cart is unchanged. -/
theorem updateQuantity_spec (cart : List CartItem) (pid d : Int) :
    (pid ∉ cartIds cart → updateQuantity cart pid d = cart) ∧
    (∀ item : CartItem, findItem cart pid = some item →
      (item.quantity + d ≤ 0 →
        pid ∉ cartIds (getItems (updateQuantity cart pid d))) ∧
      (0 < item.quantity + d →
        findItem (updateQuantity cart pid d) pid =
          some { item with quantity := item.quantity + d })) := by
  constructor
  · intro hm
    unfold updateQuantity
    rw [findItem_eq_none cart pid hm]
  · intro item hfind
    unfold findItem at hfind
    constructor
    · intro hle
      unfold updateQuantity getItems
      rw [hfind]
      simp only []
      rw [if_pos hle]
      exact removeItem_not_mem _ pid
    · intro hpos'
      unfold updateQuantity findItem
      rw [hfind]
      simp only []
      rw [if_neg (by omega)]
      exact find?_bumpFirst pid d cart item hfind

theorem updateQuantity_spec_witness :
    ((1:Int) ∉ cartIds [⟨⟨1, some 10⟩, 2, 10⟩] →
      updateQuantity [⟨⟨1, some 10⟩, 2, 10⟩] 1 (-2) = [⟨⟨1, some 10⟩, 2, 10⟩]) ∧
    (∀ item : CartItem, findItem [⟨⟨1, some 10⟩, 2, 10⟩] 1 = some item →
      (item.quantity + (-2) ≤ 0 →
        (1:Int) ∉ cartIds (getItems (updateQuantity [⟨⟨1, some 10⟩, 2, 10⟩] 1 (-2)))) ∧
      (0 < item.quantity + (-2) →
        findItem (updateQuantity [⟨⟨1, some 10⟩, 2, 10⟩] 1 (-2)) 1 =
          some { item with quantity := item.quantity + (-2) })) :=
  updateQuantity_spec [⟨⟨1, some 10⟩, 2, 10⟩] 1 (-2)

/-! ### Claim C9: `constantTimeEqual` -/

theorem or_eq_zero_nat (x y : Nat) : x ||| y = 0 ↔ x = 0 ∧ y = 0 := by
  constructor
  · intro h
    have hbit : ∀ i, x.testBit i = false ∧ y.testBit i = false := by
      intro i
      have h' : (x ||| y).testBit i = Nat.testBit 0 i := by rw [h]
      rw [Nat.testBit_or, Nat.zero_testBit] at h'
      exact Bool.or_eq_false_iff.mp h'
    constructor
    · apply Nat.eq_of_testBit_eq
      intro i
      rw [Nat.zero_testBit]
      exact (hbit i).1
    · apply Nat.eq_of_testBit_eq
      intro i
      rw [Nat.zero_testBit]
      exact (hbit i).2
  · rintro ⟨rfl, rfl⟩
    rfl

theorem foldl_or_eq_zero (l : List Nat) :
    ∀ acc : Nat, l.foldl (fun r x => r ||| x) acc = 0 ↔ acc = 0 ∧ ∀ x ∈ l, x = 0 := by
  induction l with
  | nil => intro acc; simp
  | cons a l ih =>
    intro acc
    rw [List.foldl_cons, ih, or_eq_zero_nat]
    constructor
    · rintro ⟨⟨h1, h2⟩, h3⟩
      refine ⟨h1, fun x hx => ?_⟩
      rcases List.mem_cons.mp hx with rfl | hx
      · exact h2
      · exact h3 x hx
    · rintro ⟨h1, h2⟩
      exact ⟨⟨h1, h2 a (by simp)⟩, fun x hx => h2 x (by simp [hx])⟩

theorem zip_xor_self_zero (l : List Nat) :
    ∀ z ∈ List.zipWith (fun x y => x ^^^ y) l l, z = 0 := by
  induction l with
  | nil => simp
  | cons a l ih =>
    intro z hz
    rw [List.zipWith_cons_cons] at hz
    rcases List.mem_cons.mp hz with rfl | hz
    · exact Nat.xor_self a
    · exact ih z hz

theorem zip_xor_all_zero (ua : List Nat) :
    ∀ ub : List Nat, ua.length = ub.length →
      ((∀ z ∈ List.zipWith (fun x y => x ^^^ y) ua ub, z = 0) ↔ ua = ub) := by
  induction ua with
  | nil =>
    intro ub hlen
    cases ub with
    | nil => simp
    | cons b ub => simp at hlen
  | cons a ua ih =>
    intro ub hlen
    cases ub with
    | nil => simp at hlen
    | cons b ub =>
      rw [List.zipWith_cons_cons]
      rw [List.length_cons, List.length_cons] at hlen
      constructor
      · intro h
        have ha : a ^^^ b = 0 := h _ (by simp)
        rw [Nat.xor_eq_zero] at ha
        have htl := (ih ub (by omega)).mp (fun z hz => h z (by simp [hz]))
        rw [ha, htl]
      · intro h
        injection h with h1 h2
        subst h1
        subst h2
        intro z hz
        rcases List.mem_cons.mp hz with rfl | hz
        · exact Nat.xor_self a
        · exact zip_xor_self_zero ua z hz

theorem utf16EncodeChar_ne_nil (c : Char) : utf16EncodeChar c ≠ [] := by
  unfold utf16EncodeChar
  split <;> simp

theorem char_eq_of_toNat_eq {c d : Char} (h : c.toNat = d.toNat) : c = d := by
  have h2 := congrArg Char.ofNat h
  rwa [Char.ofNat_toNat, Char.ofNat_toNat] at h2

theorem utf16Encode_inj (a : Str) :
    ∀ b : Str, utf16Encode a = utf16Encode b → a = b := by
  induction a with
  | nil =>
    intro b h
    cases b with
    | nil => rfl
    | cons c b =>
      exfalso
      rw [show utf16Encode [] = [] from rfl,
        show utf16Encode (c :: b) = utf16EncodeChar c ++ utf16Encode b by
          simp [utf16Encode]] at h
      obtain ⟨u, us, hu⟩ := List.exists_cons_of_ne_nil (utf16EncodeChar_ne_nil c)
      rw [hu] at h
      cases h
  | cons c a ih =>
    intro b h
    cases b with
    | nil =>
      exfalso
      rw [show utf16Encode [] = [] from rfl,
        show utf16Encode (c :: a) = utf16EncodeChar c ++ utf16Encode a by
          simp [utf16Encode]] at h
      obtain ⟨u, us, hu⟩ := List.exists_cons_of_ne_nil (utf16EncodeChar_ne_nil c)
      rw [hu] at h
      cases h
    | cons d b =>
      rw [show utf16Encode (c :: a) = utf16EncodeChar c ++ utf16Encode a by
          simp [utf16Encode],
        show utf16Encode (d :: b) = utf16EncodeChar d ++ utf16Encode b by
          simp [utf16Encode]] at h
      have hvc : c.toNat < 0xd800 ∨ (0xdfff < c.toNat ∧ c.toNat < 0x110000) := c.valid
      have hvd : d.toNat < 0xd800 ∨ (0xdfff < d.toNat ∧ d.toNat < 0x110000) := d.valid
      unfold utf16EncodeChar at h
      by_cases hc : c.toNat < 0x10000
      · rw [if_pos hc] at h
        by_cases hd : d.toNat < 0x10000
        · rw [if_pos hd] at h
          simp only [List.cons_append, List.nil_append, List.cons.injEq] at h
          rw [char_eq_of_toNat_eq h.1, ih b h.2]
        · rw [if_neg hd] at h
          simp only [List.cons_append, List.nil_append, List.cons.injEq] at h
          exfalso
          omega
      · rw [if_neg hc] at h
        by_cases hd : d.toNat < 0x10000
        · rw [if_pos hd] at h
          simp only [List.cons_append, List.nil_append, List.cons.injEq] at h
          exfalso
          omega
        · rw [if_neg hd] at h
          simp only [List.cons_append, List.nil_append, List.cons.injEq] at h
          obtain ⟨h1, h2, h3⟩ := h
          have hcd : c.toNat = d.toNat := by omega
          rw [char_eq_of_toNat_eq hcd, ih b h3]

/-- C9: `constantTimeEqual a b` returns true exactly when the strings `a` and
`b` are equal: equal strings compare true, and strings differing in any code
unit or in length compare false. -/
theorem constantTimeEqual_iff (a b : Str) : constantTimeEqual a b = true ↔ a = b := by
  unfold constantTimeEqual
  by_cases hlen : (utf16Encode a).length ≠ (utf16Encode b).length
  · rw [if_pos hlen]
    constructor
    · intro h
      cases h
    · intro h
      subst h
      exact absurd rfl hlen
  · rw [if_neg hlen]
    push_neg at hlen
    rw [beq_iff_eq, foldl_or_eq_zero]
    constructor
    · rintro ⟨-, h⟩
      exact utf16Encode_inj a b ((zip_xor_all_zero _ _ hlen).mp h)
    · intro h
      subst h
      exact ⟨rfl, (zip_xor_all_zero _ _ rfl).mpr rfl⟩

theorem constantTimeEqual_iff_witness :
    constantTimeEqual "abc".data "abc".data = true ∧
    ¬ constantTimeEqual "abc".data "abd".data = true ∧
    ¬ constantTimeEqual "ab".data "abc".data = true :=
  ⟨(constantTimeEqual_iff "abc".data "abc".data).mpr rfl,
    fun h => absurd ((constantTimeEqual_iff "abc".data "abd".data).mp h) (by decide),
    fun h => absurd ((constantTimeEqual_iff "ab".data "abc".data).mp h) (by decide)⟩

end GoldPerfium
